import Mathlib

/-!
# Verification of the multi-output encoder of
# `automl/10.auto-ml-multi-output-example.ipynb`

The notebook defines four transformer functions:

```python
def multi_output_transform_x_y(X, y):
    X_new = multi_output_transformer_x(X, y.shape[1])
    y_new = multi_output_transform_y(y)
    return X_new, y_new

def multi_output_transformer_x(X, number_of_columns_y):
    indicator_vecs = linalg.block_diag(*([np.ones((X.shape[0], 1))] * number_of_columns_y))
    if sparse.issparse(X):
        X_new = sparse.vstack(np.tile(X, number_of_columns_y))
        indicator_vecs = sparse.coo_matrix(indicator_vecs)
        X_new = sparse.hstack((X_new, indicator_vecs))
    else:
        X_new = np.tile(X, (number_of_columns_y, 1))
        X_new = np.hstack((X_new, indicator_vecs))
    return X_new

def multi_output_transform_y(y):
    return y.reshape(-1, order="F")

def multi_output_inverse_transform_y(y, number_of_columns_y):
    return y.reshape((-1, number_of_columns_y), order = "F")
```

We embed these shallowly: a dense matrix is a list of rows over `ℚ`,
a sparse matrix is a COO triple list, a NumPy `ndarray` target `y` is
either 1-dimensional (a vector) or 2-dimensional (a matrix), and a
NumPy error (`ValueError` from an impossible `reshape`, `IndexError`
from reading `shape[1]` of a 1-D array) is `Option.none`.
-/

set_option autoImplicit false

/-- A dense matrix: a list of rows over `ℚ`. -/
abbrev Mat : Type := List (List ℚ)

/-- Well-formedness of a dense matrix of shape `(n, k)`:
`n` rows, each of length `k`. -/
def matWF (m : Mat) (n k : Nat) : Prop :=
  m.length = n ∧ ∀ row ∈ m, row.length = k

instance (m : Mat) (n k : Nat) : Decidable (matWF m n k) := by
  unfold matWF; infer_instance

/-- `y.shape[1]` of a 2-D array stored as a list of rows:
the common row length (read off the first row). -/
def matCols (m : Mat) : Nat := (m.headD []).length

/-- `np.tile(X, (k, 1))`: `k` copies of `X` stacked vertically. -/
def npTile (X : Mat) (k : Nat) : Mat :=
  (List.range k).flatMap (fun _ => X)

/-- The one-hot vector `e_j` of length `k` (row of the indicator block). -/
def oneHot (k j : Nat) : List ℚ :=
  (List.range k).map (fun c => if c = j then (1 : ℚ) else 0)

/-- `linalg.block_diag(*([np.ones((n, 1))] * k))`: the `(n·k) × k`
block-diagonal indicator matrix; row `j·n + i` is `oneHot k j`. -/
def blockDiagOnes (n k : Nat) : Mat :=
  (List.range k).flatMap (fun j => List.replicate n (oneHot k j))

/-- `np.hstack((A, B))` for two blocks with the same number of rows:
pointwise row concatenation. -/
def npHstack (A B : Mat) : Mat :=
  List.zipWith (fun r s => r ++ s) A B

/-- The dense branch of `multi_output_transformer_x`. -/
def denseTransformerX (X : Mat) (k : Nat) : Mat :=
  npHstack (npTile X k) (blockDiagOnes X.length k)

/-- `y.reshape(-1, order="F")`: column-major (Fortran-order) flattening
of a matrix; column 0 first, then column 1, and so on. -/
def multi_output_transform_y (y : Mat) : List ℚ :=
  (List.range (matCols y)).flatMap (fun j => y.map (fun row => row.getD j 0))

/-- `y.reshape((-1, k), order="F")`: column-major unflattening into an
`n × k` matrix with `n = len(y) / k`.  NumPy raises `ValueError` when the
length is not divisible by `k` (or when `k = 0`); that is `none` here. -/
def multi_output_inverse_transform_y (y : List ℚ) (k : Nat) : Option Mat :=
  if k = 0 then none
  else if y.length % k ≠ 0 then none
  else some ((List.range (y.length / k)).map (fun i =>
    (List.range k).map (fun j => y.getD (j * (y.length / k) + i) 0)))

/-- A sparse matrix in COO layout: shape plus a list of
`(row, col, value)` triples, as `scipy.sparse.coo_matrix` stores it. -/
structure Coo where
  rows : Nat
  cols : Nat
  entries : List (Nat × Nat × ℚ)
deriving Repr, DecidableEq

/-- scipy's well-formedness invariant on a COO matrix: every stored
index is inside the declared shape. -/
def cooWF (A : Coo) : Prop :=
  ∀ e ∈ A.entries, e.1 < A.rows ∧ e.2.1 < A.cols

instance (A : Coo) : Decidable (cooWF A) := by
  unfold cooWF; infer_instance

/-- The value of a COO entry list at position `(i, j)`: the sum of all
stored values with that index (COO semantics sums duplicates). -/
def cooSum (es : List (Nat × Nat × ℚ)) (i j : Nat) : ℚ :=
  ((es.filter (fun e => e.1 = i ∧ e.2.1 = j)).map (fun e => e.2.2)).sum

/-- Densification of a COO matrix (`A.toarray()`). -/
def cooToDense (A : Coo) : Mat :=
  (List.range A.rows).map (fun i =>
    (List.range A.cols).map (fun j => cooSum A.entries i j))

/-- `sparse.vstack(np.tile(X, k))` for sparse `X`: `k` vertical copies,
copy `t` with its row indices shifted by `t·rows`. -/
def cooVstackCopies (A : Coo) (k : Nat) : Coo :=
  { rows := k * A.rows
    cols := A.cols
    entries := (List.range k).flatMap (fun t =>
      A.entries.map (fun e => (t * A.rows + e.1, e.2.1, e.2.2))) }

/-- `sparse.coo_matrix(indicator_vecs)`: the COO form of
`blockDiagOnes n k`, one entry `(j·n + i, j, 1)` per one. -/
def cooIndicator (n k : Nat) : Coo :=
  { rows := k * n
    cols := k
    entries := (List.range k).flatMap (fun j =>
      (List.range n).map (fun i => (j * n + i, j, (1 : ℚ)))) }

/-- `sparse.hstack((A, B))`: column indices of `B` shifted by `A.cols`. -/
def cooHstack (A B : Coo) : Coo :=
  { rows := A.rows
    cols := A.cols + B.cols
    entries := A.entries ++ B.entries.map (fun e => (e.1, A.cols + e.2.1, e.2.2)) }

/-- The sparse branch of `multi_output_transformer_x`. -/
def sparseTransformerX (A : Coo) (k : Nat) : Coo :=
  cooHstack (cooVstackCopies A k) (cooIndicator A.rows k)

/-- A feature matrix as the Python code receives it: dense `ndarray` or
scipy sparse; `sparse.issparse` is the branch on this representation. -/
inductive MatRep where
  | dense : Mat → MatRep
  | sparse : Coo → MatRep
deriving Repr, DecidableEq

/-- `multi_output_transformer_x(X, number_of_columns_y)`, with the
`sparse.issparse(X)` branch made explicit on the representation. -/
def multi_output_transformer_x (X : MatRep) (k : Nat) : MatRep :=
  match X with
  | .dense M => .dense (denseTransformerX M k)
  | .sparse A => .sparse (sparseTransformerX A k)

/-- The target argument `y` as an `ndarray`: 1-dimensional (shape `(n,)`)
or 2-dimensional (shape `(n, k)`). -/
inductive YInput where
  | vec : List ℚ → YInput
  | mat : Mat → YInput
deriving Repr, DecidableEq

/-- `multi_output_transform_x_y(X, y)`.  Reading `y.shape[1]` of a 1-D
array raises `IndexError` (tuple index out of range), modelled as `none`;
the code performs no other validation. -/
def multi_output_transform_x_y (X : MatRep) (y : YInput) :
    Option (MatRep × List ℚ) :=
  match y with
  | .vec _ => none
  | .mat m => some (multi_output_transformer_x X (matCols m),
      multi_output_transform_y m)

/-- `X.shape[0]` of a feature matrix in either representation. -/
def matRepRows : MatRep → Nat
  | .dense M => M.length
  | .sparse A => A.rows

/-! ## List infrastructure: indexing into uniform-chunk `flatMap`s -/

theorem length_flatMap_range_const {β : Type} (f : Nat → List β) (n k : Nat)
    (h : ∀ j, (f j).length = n) :
    ((List.range k).flatMap f).length = k * n := by
  induction k with
  | zero => simp
  | succ k ih =>
    rw [List.range_succ, List.flatMap_append]
    simp [ih, h, Nat.succ_mul]

theorem getD_flatMap_range_chunk {β : Type} (f : Nat → List β) (n k j i : Nat)
    (d : β) (hlen : ∀ j, (f j).length = n) :
    j < k → i < n →
    ((List.range k).flatMap f).getD (j * n + i) d = (f j).getD i d := by
  induction k with
  | zero => intro hj _; omega
  | succ k ih =>
    intro hj hi
    rw [List.range_succ, List.flatMap_append]
    have hfk : ([k].flatMap f) = f k := by simp
    rw [hfk]
    have hlenk : ((List.range k).flatMap f).length = k * n :=
      length_flatMap_range_const f n k hlen
    rcases Nat.lt_or_ge j k with h | h
    · have hlt : j * n + i < k * n := by
        have h1 : j * n + i < (j + 1) * n := by
          rw [Nat.succ_mul]; omega
        have h2 : (j + 1) * n ≤ k * n := Nat.mul_le_mul_right n h
        omega
      rw [List.getD_append _ _ _ _ (by omega)]
      exact ih h hi
    · have hjk : j = k := by omega
      subst hjk
      rw [List.getD_append_right _ _ _ _ (by omega)]
      rw [hlenk]
      congr 1
      omega

/-! ## Basic facts about well-formed matrices and the `y` pipeline -/

theorem matCols_of_wf {m : Mat} {n k : Nat} (hwf : matWF m n k) (hn : 1 ≤ n) :
    matCols m = k := by
  obtain ⟨hlen, hrow⟩ := hwf
  cases m with
  | nil => simp at hlen; omega
  | cons r t => exact hrow r (by simp)

theorem getD_row_length {m : Mat} {n k i : Nat} (hwf : matWF m n k)
    (hi : i < n) : (m.getD i []).length = k := by
  obtain ⟨hlen, hrow⟩ := hwf
  have hi' : i < m.length := by omega
  rw [List.getD_eq_getElem _ _ hi']
  exact hrow _ (List.getElem_mem hi')

theorem transform_y_length {Y : Mat} {n k : Nat} (hwf : matWF Y n k)
    (hn : 1 ≤ n) : (multi_output_transform_y Y).length = k * n := by
  unfold multi_output_transform_y
  rw [matCols_of_wf hwf hn]
  exact length_flatMap_range_const _ n k (fun j => by simp [hwf.1])

theorem transform_y_getD {Y : Mat} {n k : Nat} (hwf : matWF Y n k)
    (hn : 1 ≤ n) (i j : Nat) (hi : i < n) (hj : j < k) :
    (multi_output_transform_y Y).getD (j * n + i) 0 = (Y.getD i []).getD j 0 := by
  unfold multi_output_transform_y
  rw [matCols_of_wf hwf hn]
  rw [getD_flatMap_range_chunk _ n k j i _ (fun j' => by simp [hwf.1]) hj hi]
  have hi' : i < Y.length := by rw [hwf.1]; exact hi
  rw [List.getD_eq_getElem _ _ (by simpa using hi'), List.getElem_map,
    List.getD_eq_getElem _ _ hi']

theorem oneHot_length (k j : Nat) : (oneHot k j).length = k := by
  simp [oneHot]

theorem oneHot_getD (k j c : Nat) (hc : c < k) :
    (oneHot k j).getD c 0 = if c = j then 1 else 0 := by
  rw [oneHot, List.getD_eq_getElem _ _ (by simpa using hc)]
  simp

/-! ## Structure of the dense stacked matrix `X'` -/

theorem mul_index_lt {n k j i : Nat} (hj : j < k) (hi : i < n) :
    j * n + i < k * n := by
  have h1 : j * n + i < (j + 1) * n := by rw [Nat.succ_mul]; omega
  have h2 : (j + 1) * n ≤ k * n := Nat.mul_le_mul_right n hj
  omega

theorem npTile_length (X : Mat) (k : Nat) :
    (npTile X k).length = k * X.length :=
  length_flatMap_range_const _ X.length k (fun _ => rfl)

theorem blockDiagOnes_length (n k : Nat) :
    (blockDiagOnes n k).length = k * n :=
  length_flatMap_range_const _ n k (fun j => List.length_replicate n (oneHot k j))

theorem npTile_getD (X : Mat) (k j i : Nat) (hj : j < k) (hi : i < X.length) :
    (npTile X k).getD (j * X.length + i) [] = X.getD i [] :=
  getD_flatMap_range_chunk _ X.length k j i [] (fun _ => rfl) hj hi

theorem blockDiagOnes_getD (n k j i : Nat) (hj : j < k) (hi : i < n) :
    (blockDiagOnes n k).getD (j * n + i) [] = oneHot k j := by
  rw [blockDiagOnes,
    getD_flatMap_range_chunk _ n k j i []
      (fun j' => List.length_replicate n (oneHot k j')) hj hi]
  rw [List.getD_eq_getElem _ _ (by simpa using hi), List.getElem_replicate]

theorem mem_npTile {X : Mat} {k : Nat} {row : List ℚ}
    (h : row ∈ npTile X k) : row ∈ X := by
  unfold npTile at h
  rw [List.mem_flatMap] at h
  obtain ⟨t, _, h⟩ := h
  exact h

theorem mem_blockDiagOnes {n k : Nat} {row : List ℚ}
    (h : row ∈ blockDiagOnes n k) : ∃ j < k, row = oneHot k j := by
  unfold blockDiagOnes at h
  rw [List.mem_flatMap] at h
  obtain ⟨j, hj, h⟩ := h
  rw [List.mem_replicate] at h
  exact ⟨j, List.mem_range.mp hj, h.2⟩

theorem denseTransformerX_length (X : Mat) (k : Nat) :
    (denseTransformerX X k).length = k * X.length := by
  unfold denseTransformerX npHstack
  rw [List.length_zipWith, npTile_length, blockDiagOnes_length]
  simp

theorem denseTransformerX_row_mem {X : Mat} {n f k : Nat} (hwf : matWF X n f)
    {row : List ℚ} (h : row ∈ denseTransformerX X k) : row.length = f + k := by
  rw [List.mem_iff_getElem] at h
  obtain ⟨r, hr, hrow⟩ := h
  have hb1 : r < (npTile X k).length := by
    unfold denseTransformerX npHstack at hr
    rw [List.length_zipWith] at hr
    omega
  have hb2 : r < (blockDiagOnes X.length k).length := by
    unfold denseTransformerX npHstack at hr
    rw [List.length_zipWith] at hr
    omega
  have hrow2 : row = (npTile X k)[r] ++ (blockDiagOnes X.length k)[r] := by
    rw [← hrow]
    unfold denseTransformerX npHstack
    rw [List.getElem_zipWith]
  have h1 : (npTile X k)[r] ∈ X := mem_npTile (List.getElem_mem hb1)
  obtain ⟨j, hj, hoh⟩ := mem_blockDiagOnes (List.getElem_mem hb2)
  rw [hrow2, List.length_append, hwf.2 _ h1, hoh, oneHot_length]

theorem denseTransformerX_row {X : Mat} {n f k : Nat} (hwf : matWF X n f)
    (j i : Nat) (hj : j < k) (hi : i < n) :
    (denseTransformerX X k).getD (j * n + i) [] = X.getD i [] ++ oneHot k j := by
  have hn : X.length = n := hwf.1
  have hlt : j * n + i < k * n := mul_index_lt hj hi
  have hlen : (denseTransformerX X k).length = k * n := by
    rw [denseTransformerX_length, hn]
  rw [List.getD_eq_getElem _ _ (by omega)]
  unfold denseTransformerX npHstack
  rw [List.getElem_zipWith]
  congr 1
  · rw [← List.getD_eq_getElem (npTile X k) []]
    rw [show j * n + i = j * X.length + i by rw [hn]]
    rw [npTile_getD X k j i hj (by omega)]
  · rw [← List.getD_eq_getElem (blockDiagOnes X.length k) []]
    rw [show j * n + i = j * X.length + i by rw [hn], hn]
    rw [blockDiagOnes_getD n k j i hj hi]

/-! ## COO sum algebra -/

theorem cooSum_nil (i j : Nat) : cooSum [] i j = 0 := rfl

theorem cooSum_cons (e : Nat × Nat × ℚ) (t : List (Nat × Nat × ℚ)) (i j : Nat) :
    cooSum (e :: t) i j
      = (if e.1 = i ∧ e.2.1 = j then e.2.2 else 0) + cooSum t i j := by
  by_cases h : e.1 = i ∧ e.2.1 = j <;>
    simp [cooSum, List.filter_cons, h]

theorem cooSum_append (l₁ l₂ : List (Nat × Nat × ℚ)) (i j : Nat) :
    cooSum (l₁ ++ l₂) i j = cooSum l₁ i j + cooSum l₂ i j := by
  simp [cooSum, List.filter_append, List.sum_append]

theorem cooSum_eq_zero_row_ge {es : List (Nat × Nat × ℚ)} {n : Nat}
    (h : ∀ e ∈ es, e.1 < n) (r c : Nat) (hr : n ≤ r) : cooSum es r c = 0 := by
  induction es with
  | nil => rfl
  | cons e t ih =>
    rw [cooSum_cons]
    have he : e.1 < n := (h e (by simp)).trans_le (le_refl n) |>.trans_le (le_refl n)
    have : ¬(e.1 = r ∧ e.2.1 = c) := by
      rintro ⟨rfl, -⟩
      exact absurd (h e (by simp)) (by omega)
    rw [if_neg this, ih (fun e' he' => h e' (by simp [he']))]
    simp

theorem cooSum_eq_zero_col_ge {es : List (Nat × Nat × ℚ)} {f : Nat}
    (h : ∀ e ∈ es, e.2.1 < f) (r c : Nat) (hc : f ≤ c) : cooSum es r c = 0 := by
  induction es with
  | nil => rfl
  | cons e t ih =>
    rw [cooSum_cons]
    have : ¬(e.1 = r ∧ e.2.1 = c) := by
      rintro ⟨-, h2⟩
      have := h e (by simp)
      omega
    rw [if_neg this, ih (fun e' he' => h e' (by simp [he']))]
    simp

theorem cooSum_map_rowShift (es : List (Nat × Nat × ℚ)) (s r c : Nat) :
    cooSum (es.map (fun e => (s + e.1, e.2.1, e.2.2))) r c
      = if s ≤ r then cooSum es (r - s) c else 0 := by
  induction es with
  | nil => simp [cooSum_nil]
  | cons e t ih =>
    rw [List.map_cons, cooSum_cons, cooSum_cons, ih]
    by_cases hs : s ≤ r
    · have hcond : (s + e.1 = r ∧ e.2.1 = c) ↔ (e.1 = r - s ∧ e.2.1 = c) := by
        constructor
        · rintro ⟨h1, h2⟩; exact ⟨by omega, h2⟩
        · rintro ⟨h1, h2⟩; exact ⟨by omega, h2⟩
      simp [hs, hcond]
    · have : ¬(s + e.1 = r) := by omega
      simp [hs, this]

theorem cooSum_map_colShift (es : List (Nat × Nat × ℚ)) (s r c : Nat) :
    cooSum (es.map (fun e => (e.1, s + e.2.1, e.2.2))) r c
      = if s ≤ c then cooSum es r (c - s) else 0 := by
  induction es with
  | nil => simp [cooSum_nil]
  | cons e t ih =>
    rw [List.map_cons, cooSum_cons, cooSum_cons, ih]
    by_cases hs : s ≤ c
    · have hcond : (e.1 = r ∧ s + e.2.1 = c) ↔ (e.1 = r ∧ e.2.1 = c - s) := by
        constructor
        · rintro ⟨h1, h2⟩; exact ⟨h1, by omega⟩
        · rintro ⟨h1, h2⟩; exact ⟨h1, by omega⟩
      simp [hs, hcond]
    · have : ¬(s + e.2.1 = c) := by omega
      simp [hs, this]

theorem cooSum_copies (es : List (Nat × Nat × ℚ)) (n k j i c : Nat)
    (hrows : ∀ e ∈ es, e.1 < n) :
    j < k → i < n →
    cooSum ((List.range k).flatMap
        (fun t => es.map (fun e => (t * n + e.1, e.2.1, e.2.2)))) (j * n + i) c
      = cooSum es i c := by
  induction k with
  | zero => intro hj _; omega
  | succ k ih =>
    intro hj hi
    rw [List.range_succ, List.flatMap_append, cooSum_append]
    have hsingle : [k].flatMap
        (fun t => es.map (fun e => (t * n + e.1, e.2.1, e.2.2)))
        = es.map (fun e => (k * n + e.1, e.2.1, e.2.2)) := by simp
    rw [hsingle]
    rcases Nat.lt_or_ge j k with h | h
    · rw [ih h hi, cooSum_map_rowShift]
      have : ¬(k * n ≤ j * n + i) := by
        have := mul_index_lt h hi
        omega
      rw [if_neg this, add_zero]
    · have hjk : j = k := by omega
      rw [hjk]
      have hzero : cooSum ((List.range k).flatMap
          (fun t => es.map (fun e => (t * n + e.1, e.2.1, e.2.2)))) (k * n + i) c
          = 0 := by
        apply cooSum_eq_zero_row_ge (n := k * n) _ _ _ (by omega)
        intro e' he'
        rw [List.mem_flatMap] at he'
        obtain ⟨t, ht, he'⟩ := he'
        rw [List.mem_map] at he'
        obtain ⟨e, he, rfl⟩ := he'
        have h1 : e.1 < n := hrows e he
        have h2 : t < k := List.mem_range.mp ht
        have h3 : (t + 1) * n ≤ k * n := Nat.mul_le_mul_right n h2
        rw [Nat.succ_mul] at h3
        show t * n + e.1 < k * n
        omega
      rw [hzero, cooSum_map_rowShift, if_pos (by omega), zero_add]
      congr 1
      omega

theorem cooSum_block (l : List Nat) (base col : Nat) (v : ℚ) (r c : Nat)
    (hnd : l.Nodup) :
    cooSum (l.map (fun x => (base + x, col, v))) r c
      = if c = col ∧ base ≤ r ∧ (r - base) ∈ l then v else 0 := by
  induction l with
  | nil => simp [cooSum_nil]
  | cons a t ih =>
    obtain ⟨ha, hnd'⟩ := List.nodup_cons.mp hnd
    rw [List.map_cons, cooSum_cons, ih hnd']
    rcases Nat.lt_or_ge r base with hbr | hbr
    · rw [if_neg (by rintro ⟨h, -⟩; omega),
        if_neg (by rintro ⟨-, h, -⟩; omega),
        if_neg (by rintro ⟨-, h, -⟩; omega)]
      simp
    · by_cases hc : c = col
      · subst hc
        by_cases hhead : base + a = r
        · have h2 : r - base = a := by omega
          rw [if_pos ⟨hhead, rfl⟩,
            if_neg (by rintro ⟨-, -, hmem⟩; rw [h2] at hmem; exact ha hmem),
            if_pos ⟨rfl, hbr, by rw [h2]; exact List.mem_cons_self a t⟩]
          simp
        · have hne : r - base ≠ a := by omega
          rw [if_neg (by rintro ⟨h, -⟩; exact hhead h)]
          have hmem : ((r - base) ∈ a :: t) ↔ ((r - base) ∈ t) := by
            simp [List.mem_cons, hne]
          simp only [hmem]
          simp
      · rw [if_neg (by rintro ⟨-, h⟩; exact hc h.symm),
          if_neg (by rintro ⟨h, -⟩; exact hc h),
          if_neg (by rintro ⟨h, -⟩; exact hc h)]
        simp

theorem cooSum_indicator_entries (n k j i c : Nat) :
    j < k → i < n →
    cooSum ((List.range k).flatMap
        (fun u => (List.range n).map (fun x => (u * n + x, u, (1 : ℚ)))))
      (j * n + i) c
      = if c = j then 1 else 0 := by
  induction k with
  | zero => intro hj _; omega
  | succ k ih =>
    intro hj hi
    rw [List.range_succ, List.flatMap_append, cooSum_append]
    have hsingle : [k].flatMap
        (fun u => (List.range n).map (fun x => (u * n + x, u, (1 : ℚ))))
        = (List.range n).map (fun x => (k * n + x, k, (1 : ℚ))) := by simp
    rw [hsingle, cooSum_block _ _ _ _ _ _ (List.nodup_range n)]
    rcases Nat.lt_or_ge j k with h | h
    · have hnb : ¬(c = k ∧ k * n ≤ j * n + i ∧ j * n + i - k * n ∈ List.range n) := by
        rintro ⟨-, hle, -⟩
        have := mul_index_lt h hi
        omega
      rw [ih h hi, if_neg hnb, add_zero]
    · have hjk : j = k := by omega
      rw [hjk]
      have hzero : cooSum ((List.range k).flatMap
          (fun u => (List.range n).map (fun x => (u * n + x, u, (1 : ℚ)))))
          (k * n + i) c = 0 := by
        apply cooSum_eq_zero_row_ge (n := k * n) _ _ _ (by omega)
        intro e' he'
        rw [List.mem_flatMap] at he'
        obtain ⟨u, hu, he'⟩ := he'
        rw [List.mem_map] at he'
        obtain ⟨x, hx, rfl⟩ := he'
        have h1 : x < n := List.mem_range.mp hx
        have h2 : u < k := List.mem_range.mp hu
        have h3 : (u + 1) * n ≤ k * n := Nat.mul_le_mul_right n h2
        rw [Nat.succ_mul] at h3
        show u * n + x < k * n
        omega
      rw [hzero, zero_add]
      have h4 : k * n + i - k * n = i := by omega
      by_cases hc : c = k
      · rw [if_pos ⟨hc, by omega, by rw [h4]; exact List.mem_range.mpr hi⟩,
          if_pos hc]
      · rw [if_neg (by rintro ⟨h, -⟩; exact hc h), if_neg hc]

/-! ## Densification commutes with the sparse constructions -/

theorem flatMap_congr_left {β γ : Type} {l : List β} {f g : β → List γ}
    (h : ∀ a ∈ l, f a = g a) : l.flatMap f = l.flatMap g := by
  rw [List.flatMap_def, List.flatMap_def, List.map_congr_left h]

theorem range_mul_map {β : Type} (k n : Nat) (g : Nat → β) :
    (List.range (k * n)).map g
      = (List.range k).flatMap
          (fun t => (List.range n).map (fun i => g (t * n + i))) := by
  induction k with
  | zero => simp
  | succ k ih =>
    have h : (k + 1) * n = k * n + n := by ring
    rw [h, List.range_add, List.map_append, ih, List.range_succ,
      List.flatMap_append]
    congr 1
    simp [List.map_map, Function.comp]

theorem cooToDense_hstack (A B : Coo) (hr : A.rows = B.rows)
    (hcolA : ∀ e ∈ A.entries, e.2.1 < A.cols) :
    cooToDense (cooHstack A B) = npHstack (cooToDense A) (cooToDense B) := by
  unfold cooToDense cooHstack npHstack
  simp only
  rw [← hr, List.zipWith_map_left, List.zipWith_map_right, List.zipWith_same]
  apply List.map_congr_left
  intro r hrm
  rw [List.range_add, List.map_append]
  congr 1
  · apply List.map_congr_left
    intro c hc
    have hclt : c < A.cols := List.mem_range.mp hc
    rw [cooSum_append, cooSum_map_colShift, if_neg (by omega), add_zero]
  · rw [List.map_map]
    apply List.map_congr_left
    intro c hc
    show cooSum (A.entries ++ List.map (fun e => (e.1, A.cols + e.2.1, e.2.2)) B.entries)
        r (A.cols + c) = cooSum B.entries r c
    rw [cooSum_append, cooSum_map_colShift, if_pos (by omega),
      cooSum_eq_zero_col_ge hcolA r (A.cols + c) (by omega), zero_add]
    congr 1
    omega

theorem cooToDense_vstackCopies (A : Coo) (k : Nat)
    (hrows : ∀ e ∈ A.entries, e.1 < A.rows) :
    cooToDense (cooVstackCopies A k) = npTile (cooToDense A) k := by
  unfold cooToDense cooVstackCopies npTile
  simp only
  rw [range_mul_map]
  apply flatMap_congr_left
  intro t ht
  apply List.map_congr_left
  intro i hi
  apply List.map_congr_left
  intro c hc
  exact cooSum_copies A.entries A.rows k t i c hrows
    (List.mem_range.mp ht) (List.mem_range.mp hi)

theorem cooToDense_indicator (n k : Nat) :
    cooToDense (cooIndicator n k) = blockDiagOnes n k := by
  unfold cooToDense cooIndicator blockDiagOnes
  simp only
  rw [range_mul_map]
  apply flatMap_congr_left
  intro j hj
  have hrow : ∀ i ∈ List.range n,
      (List.range k).map
        (fun c => cooSum ((List.range k).flatMap
          (fun u => (List.range n).map (fun x => (u * n + x, u, (1 : ℚ)))))
          (j * n + i) c)
        = oneHot k j := by
    intro i hi
    unfold oneHot
    apply List.map_congr_left
    intro c hc
    exact cooSum_indicator_entries n k j i c
      (List.mem_range.mp hj) (List.mem_range.mp hi)
  rw [List.map_congr_left hrow, List.map_const', List.length_range]

theorem cooWF_vstackCopies_cols (A : Coo) (k : Nat)
    (hcols : ∀ e ∈ A.entries, e.2.1 < A.cols) :
    ∀ e ∈ (cooVstackCopies A k).entries, e.2.1 < (cooVstackCopies A k).cols := by
  intro e he
  unfold cooVstackCopies at he ⊢
  simp only at he ⊢
  rw [List.mem_flatMap] at he
  obtain ⟨t, ht, he⟩ := he
  rw [List.mem_map] at he
  obtain ⟨e', he', rfl⟩ := he
  exact hcols e' he'

theorem cooToDense_length (A : Coo) : (cooToDense A).length = A.rows := by
  simp [cooToDense]

theorem cooToDense_sparseTransformerX (A : Coo) (k : Nat) (hA : cooWF A) :
    cooToDense (sparseTransformerX A k)
      = denseTransformerX (cooToDense A) k := by
  unfold sparseTransformerX denseTransformerX
  have hrowsA : ∀ e ∈ A.entries, e.1 < A.rows := fun e he => (hA e he).1
  have hcolsA : ∀ e ∈ A.entries, e.2.1 < A.cols := fun e he => (hA e he).2
  rw [cooToDense_hstack (cooVstackCopies A k) (cooIndicator A.rows k) rfl
      (cooWF_vstackCopies_cols A k hcolsA),
    cooToDense_vstackCopies A k hrowsA, cooToDense_indicator A.rows k,
    cooToDense_length]

/-! ## The inverse transform on divisible lengths -/

theorem inverse_transform_of_dvd (y : List ℚ) (k : Nat) (hk : 1 ≤ k)
    (hdvd : k ∣ y.length) :
    multi_output_inverse_transform_y y k
      = some ((List.range (y.length / k)).map (fun i =>
          (List.range k).map (fun j => y.getD (j * (y.length / k) + i) 0))) := by
  have hmod : y.length % k = 0 := by
    obtain ⟨m, hm⟩ := hdvd
    simp [hm, Nat.mul_mod_right]
  unfold multi_output_inverse_transform_y
  rw [if_neg (by omega), if_neg (by omega)]

theorem getD_map_range {β : Type} (m : Nat) (f : Nat → β) (d : β) (i : Nat)
    (hi : i < m) : ((List.range m).map f).getD i d = f i := by
  rw [List.getD_eq_getElem _ _ (by simpa using hi), List.getElem_map,
    List.getElem_range]

theorem inverse_transform_getD (y : List ℚ) (k : Nat) (hk : 1 ≤ k)
    (hdvd : k ∣ y.length) (M : Mat)
    (hM : multi_output_inverse_transform_y y k = some M)
    (i j : Nat) (hi : i < y.length / k) (hj : j < k) :
    (M.getD i []).getD j 0 = y.getD (j * (y.length / k) + i) 0 := by
  rw [inverse_transform_of_dvd y k hk hdvd, Option.some.injEq] at hM
  rw [← hM, getD_map_range _ _ _ i hi, getD_map_range _ _ _ j hj]

theorem roundtrip_core (Y : Mat) (n k : Nat) (hn : 1 ≤ n) (hk : 1 ≤ k)
    (hwf : matWF Y n k) :
    multi_output_inverse_transform_y (multi_output_transform_y Y) k = some Y := by
  have hlen : (multi_output_transform_y Y).length = k * n :=
    transform_y_length hwf hn
  have hdvd : k ∣ (multi_output_transform_y Y).length := by
    rw [hlen]; exact dvd_mul_right k n
  rw [inverse_transform_of_dvd _ k hk hdvd]
  have hdiv : (multi_output_transform_y Y).length / k = n := by
    rw [hlen]; exact Nat.mul_div_cancel_left n (by omega)
  rw [hdiv]
  congr 1
  apply List.ext_getElem
  · simp [hwf.1]
  · intro i h1 h2
    rw [List.getElem_map, List.getElem_range]
    have hi : i < n := by simpa using h1
    have hiY : i < Y.length := by rw [hwf.1]; exact hi
    apply List.ext_getElem
    · rw [List.length_map, List.length_range, hwf.2 _ (List.getElem_mem hiY)]
    · intro j hj1 hj2
      rw [List.getElem_map, List.getElem_range]
      have hjk : j < k := by simpa using hj1
      rw [transform_y_getD hwf hn i j hi hjk]
      rw [List.getD_eq_getElem Y [] hiY]
      rw [List.getD_eq_getElem _ _
        (by rw [hwf.2 _ (List.getElem_mem hiY)]; exact hjk)]

/-! ## Claim theorems -/

/-- C1: Round-trip — for every dense target matrix `Y` of shape `(n, k)`
with `n, k ≥ 1` and any feature matrix `X` with `n` rows, applying
`multi_output_inverse_transform_y` with the same `k` to the flat target
`y'` produced by `multi_output_transform_x_y` returns exactly `Y`,
element for element. -/
theorem claim_roundtrip (X : MatRep) (Y : Mat) (n k : Nat)
    (hn : 1 ≤ n) (hk : 1 ≤ k) (hX : matRepRows X = n) (hY : matWF Y n k)
    (p : MatRep × List ℚ)
    (hp : multi_output_transform_x_y X (.mat Y) = some p) :
    multi_output_inverse_transform_y p.2 k = some Y := by
  simp only [multi_output_transform_x_y, Option.some.injEq] at hp
  rw [← hp]
  exact roundtrip_core Y n k hn hk hY

/-- Witness for C1 at `X = [[1],[2]]`, `Y = [[10,100],[20,200]]`. -/
theorem claim_roundtrip_witness :
    multi_output_inverse_transform_y
      (multi_output_transform_y [[10, 100], [20, 200]]) 2
      = some [[10, 100], [20, 200]] :=
  claim_roundtrip (.dense [[1], [2]]) [[10, 100], [20, 200]] 2 2
    (by decide) (by decide) (by decide) (by decide) _ rfl

/-- C2 counterexample: with `X` having 3 rows and `Y` having 2 rows,
`multi_output_transform_x_y` does NOT fail — it returns a result. -/
theorem claim_shape_error_counterexample :
    (multi_output_transform_x_y (.dense [[1], [2], [3]])
      (.mat [[10, 100], [20, 200]])).isSome = true := by decide

/-- C2 (amended): the forward transform performs no row-count validation:
even when the row counts of `X` and `Y` differ it returns the pair
`(X', y')` built from each input separately, rather than failing. -/
theorem claim_no_row_validation (X : MatRep) (Y : Mat)
    (hmismatch : matRepRows X ≠ Y.length) :
    multi_output_transform_x_y X (.mat Y)
      = some (multi_output_transformer_x X (matCols Y),
          multi_output_transform_y Y) := rfl

/-- Witness for the amended C2 at `X` with 3 rows, `Y` with 2 rows. -/
theorem claim_no_row_validation_witness :
    matRepRows (.dense [[1], [2], [3]]) ≠ ([[10, 100], [20, 200]] : Mat).length ∧
    multi_output_transform_x_y (.dense [[1], [2], [3]])
        (.mat [[10, 100], [20, 200]])
      = some (multi_output_transformer_x (.dense [[1], [2], [3]]) 2,
          multi_output_transform_y [[10, 100], [20, 200]]) :=
  ⟨by decide, claim_no_row_validation _ _ (by decide)⟩

/-- C3: shape invariant — for `X` of shape `(n, f)` and `Y` of shape
`(n, k)` with `n, f, k ≥ 1`, the forward transform returns `X'` with
`n·k` rows of `f + k` entries each, and a flat `y'` of length `n·k`. -/
theorem claim_forward_shapes (X Y : Mat) (n f k : Nat)
    (hn : 1 ≤ n) (hf : 1 ≤ f) (hk : 1 ≤ k)
    (hX : matWF X n f) (hY : matWF Y n k) :
    multi_output_transform_x_y (.dense X) (.mat Y)
      = some (.dense (denseTransformerX X k), multi_output_transform_y Y) ∧
    (denseTransformerX X k).length = n * k ∧
    (∀ row ∈ denseTransformerX X k, row.length = f + k) ∧
    (multi_output_transform_y Y).length = n * k := by
  refine ⟨?_, ?_, ?_, ?_⟩
  · simp [multi_output_transform_x_y, multi_output_transformer_x,
      matCols_of_wf hY hn]
  · rw [denseTransformerX_length, hX.1, Nat.mul_comm]
  · intro row hr
    exact denseTransformerX_row_mem hX hr
  · rw [transform_y_length hY hn, Nat.mul_comm]

/-- Witness for C3 at `n = 2`, `f = 1`, `k = 2`. -/
theorem claim_forward_shapes_witness :
    multi_output_transform_x_y (.dense [[1], [2]]) (.mat [[10, 100], [20, 200]])
      = some (.dense (denseTransformerX [[1], [2]] 2),
          multi_output_transform_y [[10, 100], [20, 200]]) ∧
    (denseTransformerX [[1], [2]] 2).length = 2 * 2 ∧
    (∀ row ∈ denseTransformerX [[1], [2]] 2, row.length = 1 + 2) ∧
    (multi_output_transform_y [[10, 100], [20, 200]]).length = 2 * 2 :=
  claim_forward_shapes [[1], [2]] [[10, 100], [20, 200]] 2 1 2
    (by decide) (by decide) (by decide) (by decide) (by decide)

/-- C4: row structure and indicator correctness — row `j·n + i` of the
stacked matrix `X'` is row `i` of `X` concatenated with the one-hot
vector `e_j` of length `k`; in particular indicator column `f + c` of
that row is `1` exactly when `c = j`. -/
theorem claim_row_structure (X : Mat) (n f k : Nat) (hX : matWF X n f)
    (R : Mat) (hR : multi_output_transformer_x (.dense X) k = .dense R)
    (j i : Nat) (hj : j < k) (hi : i < n) :
    R.getD (j * n + i) [] = X.getD i [] ++ oneHot k j ∧
    ∀ c < k, (R.getD (j * n + i) []).getD (f + c) 0
      = if c = j then 1 else 0 := by
  have hRd : denseTransformerX X k = R := by
    simpa [multi_output_transformer_x] using hR
  rw [← hRd]
  constructor
  · exact denseTransformerX_row hX j i hj hi
  · intro c hc
    rw [denseTransformerX_row hX j i hj hi]
    rw [List.getD_append_right _ _ _ _ (by rw [getD_row_length hX hi]; omega)]
    rw [getD_row_length hX hi, Nat.add_sub_cancel_left]
    exact oneHot_getD k j c hc

/-- Witness for C4 at `X = [[1],[2]]`, `k = 2`, block `j = 1`, row `i = 0`. -/
theorem claim_row_structure_witness :
    (denseTransformerX [[1], [2]] 2).getD (1 * 2 + 0) []
        = ([[1], [2]] : Mat).getD 0 [] ++ oneHot 2 1 ∧
    ((denseTransformerX [[1], [2]] 2).getD (1 * 2 + 0) []).getD (1 + 1) 0
        = if (1 : Nat) = 1 then 1 else 0 := by
  have h := claim_row_structure [[1], [2]] 2 1 2 (by decide)
    (denseTransformerX [[1], [2]] 2) rfl 1 0 (by decide) (by decide)
  exact ⟨h.1, h.2 1 (by decide)⟩

/-- C5: column-major flattening correspondence — `y'[j·n + i] = Y[i][j]`
for the forward flattening, and `Y_pred[i][j] = y_pred[j·n + i]` with
`n = len(y_pred) / k` for the inverse unflattening. -/
theorem claim_column_major :
    (∀ (Y : Mat) (n k : Nat), 1 ≤ n → 1 ≤ k → matWF Y n k →
      ∀ i < n, ∀ j < k,
        (multi_output_transform_y Y).getD (j * n + i) 0
          = (Y.getD i []).getD j 0) ∧
    (∀ (y : List ℚ) (k : Nat), 1 ≤ k → k ∣ y.length →
      ∃ M, multi_output_inverse_transform_y y k = some M ∧
        ∀ i < y.length / k, ∀ j < k,
          (M.getD i []).getD j 0 = y.getD (j * (y.length / k) + i) 0) := by
  constructor
  · intro Y n k hn hk hwf i hi j hj
    exact transform_y_getD hwf hn i j hi hj
  · intro y k hk hdvd
    refine ⟨_, inverse_transform_of_dvd y k hk hdvd, ?_⟩
    intro i hi j hj
    exact inverse_transform_getD y k hk hdvd _
      (inverse_transform_of_dvd y k hk hdvd) i j hi hj

/-- Witness for C5 at `Y = [[10,100],[20,200]]` and `y = [10,20,100,200]`,
`k = 2`. -/
theorem claim_column_major_witness :
    (multi_output_transform_y [[10, 100], [20, 200]]).getD (1 * 2 + 0) 0
        = (([[10, 100], [20, 200]] : Mat).getD 0 []).getD 1 0 ∧
    ∃ M, multi_output_inverse_transform_y [10, 20, 100, 200] 2 = some M ∧
      ∀ i < ([10, 20, 100, 200] : List ℚ).length / 2, ∀ j < 2,
        (M.getD i []).getD j 0
          = ([10, 20, 100, 200] : List ℚ).getD
              (j * (([10, 20, 100, 200] : List ℚ).length / 2) + i) 0 :=
  ⟨claim_column_major.1 [[10, 100], [20, 200]] 2 2 (by decide) (by decide)
      (by decide) 0 (by decide) 1 (by decide),
   claim_column_major.2 [10, 20, 100, 200] 2 (by decide) (by decide)⟩

/-- C6: the inverse transform fails (NumPy `ValueError` on the
impossible reshape, the spec's ShapeError) whenever the input length is
not divisible by `k`, returning no partial result. -/
theorem claim_inverse_shape_error (y : List ℚ) (k : Nat) (hk : 1 ≤ k)
    (hmod : y.length % k ≠ 0) :
    multi_output_inverse_transform_y y k = none := by
  unfold multi_output_inverse_transform_y
  rw [if_neg (by omega), if_pos hmod]

/-- Witness for C6: a length-5 vector with `k = 2`. -/
theorem claim_inverse_shape_error_witness :
    multi_output_inverse_transform_y [1, 2, 3, 4, 5] 2 = none :=
  claim_inverse_shape_error [1, 2, 3, 4, 5] 2 (by decide) (by decide)

/-- C7: sparse/dense equivalence — the sparse branch keeps a sparse
representation, and its densification agrees entry for entry with the
dense branch applied to the dense equivalent of `X`; the `y'` component
is identical on both paths. -/
theorem claim_sparse_dense_equivalence (A : Coo) (Y : Mat) (k : Nat)
    (hA : cooWF A) :
    multi_output_transformer_x (.sparse A) k
      = .sparse (sparseTransformerX A k) ∧
    multi_output_transformer_x (.dense (cooToDense A)) k
      = .dense (denseTransformerX (cooToDense A) k) ∧
    cooToDense (sparseTransformerX A k) = denseTransformerX (cooToDense A) k ∧
    (multi_output_transform_x_y (.sparse A) (.mat Y)).map Prod.snd
      = (multi_output_transform_x_y (.dense (cooToDense A)) (.mat Y)).map
          Prod.snd :=
  ⟨rfl, rfl, cooToDense_sparseTransformerX A k hA, rfl⟩

/-- Witness for C7 at the 2×1 sparse matrix with entries 1 and 2. -/
theorem claim_sparse_dense_equivalence_witness :
    multi_output_transformer_x (.sparse ⟨2, 1, [(0, 0, 1), (1, 0, 2)]⟩) 2
      = .sparse (sparseTransformerX ⟨2, 1, [(0, 0, 1), (1, 0, 2)]⟩ 2) ∧
    multi_output_transformer_x
        (.dense (cooToDense ⟨2, 1, [(0, 0, 1), (1, 0, 2)]⟩)) 2
      = .dense (denseTransformerX (cooToDense ⟨2, 1, [(0, 0, 1), (1, 0, 2)]⟩) 2) ∧
    cooToDense (sparseTransformerX ⟨2, 1, [(0, 0, 1), (1, 0, 2)]⟩ 2)
      = denseTransformerX (cooToDense ⟨2, 1, [(0, 0, 1), (1, 0, 2)]⟩) 2 ∧
    (multi_output_transform_x_y (.sparse ⟨2, 1, [(0, 0, 1), (1, 0, 2)]⟩)
        (.mat [[10, 100], [20, 200]])).map Prod.snd
      = (multi_output_transform_x_y
          (.dense (cooToDense ⟨2, 1, [(0, 0, 1), (1, 0, 2)]⟩))
          (.mat [[10, 100], [20, 200]])).map Prod.snd :=
  claim_sparse_dense_equivalence ⟨2, 1, [(0, 0, 1), (1, 0, 2)]⟩
    [[10, 100], [20, 200]] 2 (by decide)

/-- C8: the worked example — `X = [[1],[2]]`, `Y = [[10,100],[20,200]]`
gives `X'` rows `[1,1,0],[2,1,0],[1,0,1],[2,0,1]` and
`y' = [10,20,100,200]`, and the inverse transform recovers `Y`. -/
theorem claim_worked_example :
    multi_output_transform_x_y (.dense [[1], [2]]) (.mat [[10, 100], [20, 200]])
      = some (.dense [[1, 1, 0], [2, 1, 0], [1, 0, 1], [2, 0, 1]],
          [10, 20, 100, 200]) ∧
    multi_output_inverse_transform_y [10, 20, 100, 200] 2
      = some [[10, 100], [20, 200]] := by
  constructor <;> decide

/-- C9: noninterference of the feature side — the `X'` component of the
forward transform depends on `Y` only through its column count. -/
theorem claim_x_noninterference (X : MatRep) (Y₁ Y₂ : Mat)
    (h : matCols Y₁ = matCols Y₂) :
    (multi_output_transform_x_y X (.mat Y₁)).map Prod.fst
      = (multi_output_transform_x_y X (.mat Y₂)).map Prod.fst := by
  simp [multi_output_transform_x_y, h]

/-- Witness for C9: same column count, different row counts and entries. -/
theorem claim_x_noninterference_witness :
    (multi_output_transform_x_y (.dense [[1]]) (.mat [[10, 100]])).map Prod.fst
      = (multi_output_transform_x_y (.dense [[1]])
          (.mat [[5, 6], [7, 8], [9, 9]])).map Prod.fst :=
  claim_x_noninterference (.dense [[1]]) [[10, 100]] [[5, 6], [7, 8], [9, 9]]
    (by decide)

/-- C10: implicit 2-D requirement on `Y` — a 1-dimensional target makes
`multi_output_transform_x_y` fail on reading `y.shape[1]`, while an
explicit `n × 1` matrix is accepted with `k` read as `1`. -/
theorem claim_requires_2d :
    (∀ (X : MatRep) (v : List ℚ),
      multi_output_transform_x_y X (.vec v) = none) ∧
    (∀ (X : MatRep) (Y : Mat) (n : Nat), 1 ≤ n → matWF Y n 1 →
      multi_output_transform_x_y X (.mat Y)
        = some (multi_output_transformer_x X 1,
            multi_output_transform_y Y)) := by
  constructor
  · intro X v
    rfl
  · intro X Y n hn hwf
    simp [multi_output_transform_x_y, matCols_of_wf hwf hn]

/-- Witness for C10: a 1-D vector fails; an explicit 2×1 matrix works. -/
theorem claim_requires_2d_witness :
    multi_output_transform_x_y (.dense [[1], [2]]) (.vec [3, 4]) = none ∧
    multi_output_transform_x_y (.dense [[1], [2]]) (.mat [[3], [4]])
      = some (multi_output_transformer_x (.dense [[1], [2]]) 1,
          multi_output_transform_y [[3], [4]]) :=
  ⟨claim_requires_2d.1 _ _, claim_requires_2d.2 _ _ 2 (by decide) (by decide)⟩
